import Mathlib

/-!
# Matlab::Vector / Matlab::Matrix (include/matlab.hpp)

A shallow embedding of the header `include/matlab.hpp` and theorems about it.

Modelling conventions
* `T` is `int`: `operator[]` returns `int&`, `sum()` returns `int`, and the string
  constructor reads into an `int`.  An `int` is a Lean `Int`; the 32-bit range is
  `INT_MIN .. INT_MAX` and arithmetic results are reduced by `wrap_int`
  (two's complement wrap-around).
* `std::vector<T>` is a `List`, `std::string` is a `String` whose characters stand
  for the `char`s of the text, `std::size_t` is a `Nat`.
* A function that can throw returns `Except Error _`.  `Error.invalid_argument` is
  `std::invalid_argument` with its `what()` text; `Error.undefined_behaviour` marks an
  iterator that is read or written past the end of its container.
-/

namespace Matlab

/-! ## Machine integers -/

/-- Largest `int`. -/
def INT_MAX : Int := 2147483647

/-- Smallest `int`. -/
def INT_MIN : Int := -2147483648

/-- Reduction of a mathematical integer to the 32-bit two's complement range. -/
def wrap_int (x : Int) : Int := (x + 2147483648) % 4294967296 - 2147483648

/-- The call operator of `std::plus<>` at `int` operands. -/
def plus (a b : Int) : Int := wrap_int (a + b)

/-! ## Errors -/

/-- What a call can end with instead of a value. -/
inductive Error where
  /-- The exception `std::invalid_argument(what)`. -/
  | invalid_argument (what : String)
  /-- An iterator was dereferenced past the end of its container. -/
  | undefined_behaviour
  deriving DecidableEq, Repr

deriving instance DecidableEq for Except

/-! ## `Vector<T>` -/

/-- Class `Vector<T>`: the private member `v_`. -/
structure Vector where
  v_ : List Int
  deriving DecidableEq, Repr

/-- Constructor `Vector(std::size_t n)`: `v_(n, 0)`. -/
def Vector.of_size (n : Nat) : Vector := ⟨List.replicate n 0⟩

/-- Member `size()`. -/
def Vector.size (v : Vector) : Nat := v.v_.length

/-- Rendering of a `std::size_t` by `std::to_string`. -/
def size_to_string (n : Nat) : String := Nat.repr n

/-- The algorithm `std::transform(first1, last1, first2, d_first, op)` on whole containers:
the first range is `xs`, the second starts at the beginning of `ys`, the destination
starts at the beginning of `d`.  Elements are processed front to back; `op` may throw,
which ends the traversal.  The destination keeps its elements beyond `xs.length`. -/
def transform {α β γ : Type} (op : α → β → Except Error γ) :
    List α → List β → List γ → Except Error (List γ)
  | [], _, d => .ok d
  | _ :: _, [], _ => .error .undefined_behaviour
  | _ :: _, _ :: _, [] => .error .undefined_behaviour
  | x :: xs, y :: ys, _ :: ds =>
    match op x y with
    | .error e => .error e
    | .ok z =>
      match transform op xs ys ds with
      | .error e => .error e
      | .ok rest => .ok (z :: rest)

/-- Function `add_vectors`. -/
def add_vectors (v1 v2 : Vector) : Except Error Vector :=
  if v1.size ≠ v2.size then
    .error (.invalid_argument
      ("Vectors of unequal size (" ++ size_to_string v1.size ++ " and "
        ++ size_to_string v2.size ++ ")"))
  else
    let v_sum := Vector.of_size v1.size
    match transform (fun a b => .ok (plus a b)) v1.v_ v2.v_ v_sum.v_ with
    | .error e => .error e
    | .ok out => .ok ⟨out⟩

/-! ## `std::istringstream` -/

/-- The value `EOF` that `peek()` returns at the end of the input. -/
def EOF : Int := -1

/-- The `<cctype>` classification `isdigit` in the "C" locale. -/
def isdigit (c : Int) : Bool := decide (48 ≤ c ∧ c ≤ 57)

/-- The value of `isdigit` at a character of the text. -/
def is_digit_char (c : Char) : Bool := isdigit (c.toNat : Int)

/-- An input string stream: the characters not yet read and the state flags
(`badbit` is never set on a string buffer). -/
structure istringstream where
  buf : List Char
  eofbit : Bool
  failbit : Bool
  deriving DecidableEq, Repr

namespace istringstream

/-- Constructor `std::istringstream iss(str)`. -/
def of_string (str : String) : istringstream := ⟨str.data, false, false⟩

/-- Member `good()`: no flag is set. -/
def good (s : istringstream) : Bool := !s.eofbit && !s.failbit

/-- The conversion `operator bool`: `!fail()`. -/
def to_bool (s : istringstream) : Bool := !s.failbit

/-- Member `peek()`: the next character without extracting it.  The sentry sets
`failbit` when the stream is not good; at the end of the input `eofbit` is set. -/
def peek (s : istringstream) : Int × istringstream :=
  if s.good then
    match s.buf with
    | [] => (EOF, { s with eofbit := true })
    | c :: _ => ((c.toNat : Int), s)
  else (EOF, { s with failbit := true })

/-- Member `get()` (the character read is thrown away by the caller).  The sentry sets
`failbit` when the stream is not good; at the end of the input no character is read and
both `eofbit` and `failbit` are set. -/
def get (s : istringstream) : istringstream :=
  if s.good then
    match s.buf with
    | [] => { s with eofbit := true, failbit := true }
    | _ :: cs => { s with buf := cs }
  else { s with failbit := true }

/-- Numeric value of a digit character. -/
def digit_value (c : Char) : Nat := c.toNat - 48

/-- Accumulation of a digit sequence, most significant digit first (`std::num_get`). -/
def read_decimal (ds : List Char) : Nat :=
  ds.foldl (fun acc c => 10 * acc + digit_value c) 0

/-- The extraction `iss >> elem` for `int elem`, returning the new value of `elem` and the
stream.  The sentry sets `failbit` when the stream is not good, and `eofbit` and `failbit`
at the end of the input; `elem` is then left as it was.  Otherwise all digits at the front
are consumed; reaching the end of the input while doing so sets `eofbit`; a value above
`INT_MAX` stores `INT_MAX` and sets `failbit`; with no digit at the front `0` is stored and
`failbit` is set.  Leading white space and a sign are not modelled: the only call is made
when `peek()` has just returned a digit. -/
def extract_int (s : istringstream) (elem : Int) : Int × istringstream :=
  if s.good then
    if s.buf.isEmpty then (elem, { s with eofbit := true, failbit := true })
    else
      let ds := s.buf.takeWhile is_digit_char
      let rest := s.buf.dropWhile is_digit_char
      if ds.isEmpty then (0, { s with failbit := true })
      else if INT_MAX < (read_decimal ds : Int) then
        (INT_MAX, { buf := rest, eofbit := rest.isEmpty, failbit := true })
      else
        ((read_decimal ds : Int), { buf := rest, eofbit := rest.isEmpty, failbit := false })
  else (elem, { s with failbit := true })

end istringstream

/-! ## `Vector<T>::Vector(std::string)` -/

/-- The local variables of the string constructor. -/
structure scan_state where
  iss : istringstream
  elements : List Int
  elem : Int
  deriving DecidableEq, Repr

/-- One execution of the body of `while (iss)` in the string constructor. -/
def Vector.scan_body (s : scan_state) : scan_state :=
  let p := s.iss.peek
  if !isdigit p.1 then
    { s with iss := p.2.get }
  else
    let r := p.2.extract_int s.elem
    { iss := r.2, elements := s.elements ++ [r.1], elem := r.1 }

/-- The loop `while (iss)` of the string constructor, run for at most `fuel` tests of its
condition; `none` when the fuel runs out before the loop is left. -/
def Vector.scan : Nat → scan_state → Option (List Int)
  | 0, _ => none
  | fuel + 1, s =>
    if s.iss.to_bool then Vector.scan fuel (Vector.scan_body s) else some s.elements

/-- Constructor `Vector(std::string str)`.  The variable `elem` is not initialised in the
source and is written before it is first read; it starts at `0` here. -/
def Vector.from_string (str : String) : Option Vector :=
  (Vector.scan (str.length + 2) ⟨istringstream.of_string str, [], 0⟩).map Vector.mk

/-! ### The reading of a text described by the specification -/

/-- The maximal runs of consecutive digit characters of a text, in order of appearance:
the text is cut at every character that is not a digit and the empty pieces are dropped. -/
def spec_digit_runs (text : List Char) : List (List Char) :=
  (text.splitOnP (fun c => !is_digit_char c)).filter (fun r => !r.isEmpty)

/-- A digit run read as one unsigned decimal integer. -/
def spec_decimal (run : List Char) : Nat :=
  Nat.ofDigits 10 (run.reverse.map istringstream.digit_value)

/-- The vector the specification assigns to a text. -/
def spec_from_string (str : String) : Vector :=
  ⟨(spec_digit_runs str.data).map (fun r => (spec_decimal r : Int))⟩

/-! ## Rendering of a vector -/

/-- The insertion `oss << x` of an `int` into an output stream: decimal digits, with a
leading minus sign for a negative value. -/
def int_to_string (x : Int) : String := Int.repr x

/-- The loop of `to_string(const Vector<T>&)` over the elements from `it` on; `oss` is the
text written so far.  `it != v.cend() - 1` holds when elements remain behind `*it`. -/
def to_string_loop : List Int → String → String
  | [], oss => oss
  | x :: xs, oss =>
    to_string_loop xs (oss ++ " " ++ int_to_string x ++ (if xs.isEmpty then " " else ","))

/-- Function `to_string(const Matlab::Vector<T>& v)`. -/
def to_string (v : Vector) : String :=
  to_string_loop v.v_ "[" ++ "]"

/-! ## `Matrix<T>` -/

/-- Class `Matrix<T>`: the private member `matrix_`. -/
structure Matrix where
  matrix_ : List Vector
  deriving DecidableEq, Repr

/-- Member `size()` of `Matrix<T>`. -/
def Matrix.size (m : Matrix) : Nat := m.matrix_.length

/-- Constructor `Matrix(const std::vector<std::vector<T>>& m)`: every row is appended at
the back of `matrix_` (`std::copy` into a `std::back_inserter`), converted by
`Vector(const std::vector<T>&)`. -/
def Matrix.from_rows (m : List (List Int)) : Matrix :=
  ⟨m.foldl (fun acc row => acc ++ [Vector.mk row]) []⟩

/-- Function `add_matrices`: `m_sum` starts as a copy of `m1` and `std::transform` writes
`add_vectors` of the paired rows into it. -/
def add_matrices (m1 m2 : Matrix) : Except Error Matrix :=
  let m_sum := m1
  match transform add_vectors m1.matrix_ m2.matrix_ m_sum.matrix_ with
  | .error e => .error e
  | .ok out => .ok ⟨out⟩

/-- The loop of `to_string(const Matrix<T>&)` over the rows from `it` on. -/
def to_string_matrix_loop : List Vector → String → String
  | [], oss => oss
  | r :: rs, oss =>
    to_string_matrix_loop rs
      (oss ++ "  " ++ to_string r ++ (if rs.isEmpty then "" else ",") ++ "\n")

/-- Function `to_string(const Matrix<T>& m)` (the overload for matrices). -/
def to_string_matrix (m : Matrix) : String :=
  to_string_matrix_loop m.matrix_ ("[" ++ "\n") ++ "]"

/-! ## Indexed access, sums, sized constructors -/

/-- Whether an outcome is a thrown C++ exception (as opposed to undefined behaviour). -/
def Error.is_exception : Error → Bool
  | .invalid_argument _ => true
  | .undefined_behaviour => false

/-- The default argument of `Vector(std::size_t n = 3)`. -/
def Vector.default_size : Nat := 3

/-- The call `Vector<T>()`: the sized constructor at its default argument. -/
def Vector.default_ctor : Vector := Vector.of_size Vector.default_size

/-- Member `operator[](std::size_t pos) const` of `Vector<T>`, read: `return v_[pos]`.
`std::vector::operator[]` makes no bounds check. -/
def Vector.subscript (v : Vector) (pos : Nat) : Except Error Int :=
  match v.v_[pos]? with
  | some x => .ok x
  | none => .error .undefined_behaviour

/-- A write `v[pos] = x` through the reference returned by the non-const `operator[]` of
`Vector<T>`; the result is the vector afterwards. -/
def Vector.subscript_set (v : Vector) (pos : Nat) (x : Int) : Except Error Vector :=
  if pos < v.v_.length then .ok ⟨v.v_.set pos x⟩ else .error .undefined_behaviour

/-- Member `sum()` of `Vector<T>`: `std::accumulate(begin, end, 0)`, the accumulator being
an `int` that starts at `0` and takes `acc + elem` for each element in turn. -/
def Vector.sum (v : Vector) : Int := v.v_.foldl plus 0

/-- Constructor `Matrix(std::size_t n_rows, std::size_t n_cols)`:
`matrix_(n_rows, Vector<T>(n_cols))`. -/
def Matrix.of_size (n_rows n_cols : Nat) : Matrix :=
  ⟨List.replicate n_rows (Vector.of_size n_cols)⟩

/-- Member `operator[](std::size_t pos) const` of `Matrix<T>`, read: `return matrix_[pos]`. -/
def Matrix.subscript (m : Matrix) (pos : Nat) : Except Error Vector :=
  match m.matrix_[pos]? with
  | some row => .ok row
  | none => .error .undefined_behaviour

/-- A write `m[pos] = row` through the reference returned by the non-const `operator[]` of
`Matrix<T>`; the result is the matrix afterwards. -/
def Matrix.subscript_set (m : Matrix) (pos : Nat) (row : Vector) : Except Error Matrix :=
  if pos < m.matrix_.length then .ok ⟨m.matrix_.set pos row⟩ else .error .undefined_behaviour

/-- Member `sum()` of `Matrix<T>`: `std::accumulate` over the rows from `0` with
`acc + v.sum()`. -/
def Matrix.sum (m : Matrix) : Int := m.matrix_.foldl (fun acc v => plus acc v.sum) 0

/-- Function `was_exception_raised_when_adding_vectors`: the text of a caught
`std::invalid_argument`, the empty text when `add_vectors` returns; anything that is not a
`std::invalid_argument` is not caught. -/
def was_exception_raised_when_adding_vectors (v1 v2 : Vector) : Except Error String :=
  match add_vectors v1 v2 with
  | .ok _ => .ok ""
  | .error (.invalid_argument what) => .ok what
  | .error e => .error e

/-! ## Addition of vectors -/

theorem plus_eq_add (a b : Int) (h1 : INT_MIN ≤ a + b) (h2 : a + b ≤ INT_MAX) :
    plus a b = a + b := by
  unfold plus wrap_int
  unfold INT_MIN at h1
  unfold INT_MAX at h2
  omega

theorem transform_total {α β γ : Type} (f : α → β → γ) :
    ∀ (xs : List α) (ys : List β) (ds : List γ),
      xs.length = ys.length → xs.length = ds.length →
      transform (fun a b => .ok (f a b)) xs ys ds = .ok (List.zipWith f xs ys)
  | [], [], [], _, _ => rfl
  | x :: xs, y :: ys, d :: ds, h1, h2 => by
    have ih := transform_total f xs ys ds (by simpa using h1) (by simpa using h2)
    simp [transform, ih]

theorem add_vectors_eq_zipWith (v1 v2 : Vector) (h : v1.size = v2.size) :
    add_vectors v1 v2 = .ok ⟨List.zipWith plus v1.v_ v2.v_⟩ := by
  have h1 : v1.v_.length = v2.v_.length := h
  have h2 : v1.v_.length = (Vector.of_size v1.size).v_.length := by
    simp [Vector.of_size, Vector.size]
  simp only [add_vectors, h, ne_eq, not_true_eq_false, if_false]
  rw [← h, transform_total plus _ _ _ h1 h2]

/-- C1: for vectors `v1`, `v2` of equal length `L`, `add_vectors v1 v2` succeeds, the result
has length `L`, and at every index `i < L` the result holds `v1[i] + v2[i]`, the sum being
the `int` addition `plus` (which is the mathematical sum whenever that lies in the `int`
range). -/
theorem add_vectors_elementwise (v1 v2 : Vector) (L : Nat)
    (h1 : v1.size = L) (h2 : v2.size = L) :
    ∃ r, add_vectors v1 v2 = .ok r ∧ r.size = L ∧
      ∀ i, i < L → ∃ a b, v1.v_[i]? = some a ∧ v2.v_[i]? = some b ∧
        r.v_[i]? = some (plus a b) ∧
        (INT_MIN ≤ a + b → a + b ≤ INT_MAX → r.v_[i]? = some (a + b)) := by
  refine ⟨⟨List.zipWith plus v1.v_ v2.v_⟩, add_vectors_eq_zipWith v1 v2 (h1.trans h2.symm), ?_, ?_⟩
  · simp only [Vector.size] at h1 h2 ⊢
    simp [h1, h2]
  · intro i hi
    have hi1 : i < v1.v_.length := by rw [← h1] at hi; exact hi
    have hi2 : i < v2.v_.length := by rw [← h2] at hi; exact hi
    refine ⟨v1.v_[i], v2.v_[i], List.getElem?_eq_getElem hi1, List.getElem?_eq_getElem hi2, ?_, ?_⟩
    · simp [List.getElem?_zipWith, List.getElem?_eq_getElem hi1, List.getElem?_eq_getElem hi2]
    · intro ha hb
      simp [List.getElem?_zipWith, List.getElem?_eq_getElem hi1, List.getElem?_eq_getElem hi2,
        plus_eq_add _ _ ha hb]

theorem add_vectors_elementwise_witness :
    ∃ r, add_vectors ⟨[1, 2]⟩ ⟨[3, 4]⟩ = .ok r ∧ r.size = 2 ∧
      ∀ i, i < 2 → ∃ a b, (⟨[1, 2]⟩ : Vector).v_[i]? = some a ∧
        (⟨[3, 4]⟩ : Vector).v_[i]? = some b ∧ r.v_[i]? = some (plus a b) ∧
        (INT_MIN ≤ a + b → a + b ≤ INT_MAX → r.v_[i]? = some (a + b)) :=
  add_vectors_elementwise ⟨[1, 2]⟩ ⟨[3, 4]⟩ 2 (by decide) (by decide)

theorem add_vectors_fails_iff_aux (v1 v2 : Vector) (h : v1.size ≠ v2.size) :
    add_vectors v1 v2 = .error (.invalid_argument
      ("Vectors of unequal size (" ++ Nat.repr v1.size ++ " and " ++ Nat.repr v2.size
        ++ ")")) := by
  simp [add_vectors, h, size_to_string]

/-- C2: `add_vectors v1 v2` fails exactly when the sizes differ, and then the error is
`std::invalid_argument` with the text `Vectors of unequal size (L1 and L2)`, `L1` and `L2`
being the decimal renderings of `v1.size` and `v2.size` in that order. -/
theorem add_vectors_fails_iff (v1 v2 : Vector) :
    ((∃ e, add_vectors v1 v2 = .error e) ↔ v1.size ≠ v2.size) ∧
    (v1.size ≠ v2.size →
      add_vectors v1 v2 = .error (.invalid_argument
        ("Vectors of unequal size (" ++ Nat.repr v1.size ++ " and " ++ Nat.repr v2.size
          ++ ")"))) := by
  refine ⟨⟨?_, fun h => ⟨_, add_vectors_fails_iff_aux v1 v2 h⟩⟩, add_vectors_fails_iff_aux v1 v2⟩
  rintro ⟨e, he⟩ heq
  rw [add_vectors_eq_zipWith v1 v2 heq] at he
  cases he

theorem add_vectors_fails_iff_witness :
    (⟨[1, 2]⟩ : Vector).size ≠ (⟨[3, 4, 5]⟩ : Vector).size ∧
    add_vectors ⟨[1, 2]⟩ ⟨[3, 4, 5]⟩ =
      .error (.invalid_argument "Vectors of unequal size (2 and 3)") :=
  ⟨by decide, (add_vectors_fails_iff ⟨[1, 2]⟩ ⟨[3, 4, 5]⟩).2 (by decide)⟩

/-! ## The string constructor -/

theorem read_decimal_eq_spec (ds : List Char) :
    istringstream.read_decimal ds = spec_decimal ds := by
  induction ds using List.reverseRecOn with
  | nil => rfl
  | append_singleton init c ih =>
    unfold istringstream.read_decimal spec_decimal at *
    rw [List.foldl_append, List.reverse_append]
    simp only [List.foldl_cons, List.foldl_nil, List.reverse_cons, List.reverse_nil,
      List.nil_append, List.singleton_append, List.map_cons, Nat.ofDigits_cons]
    rw [ih]
    ring

theorem scan_body_nil (els : List Int) (e : Int) :
    Vector.scan_body ⟨⟨[], false, false⟩, els, e⟩ = ⟨⟨[], true, true⟩, els, e⟩ := rfl

theorem scan_body_eof (els : List Int) (e : Int) :
    Vector.scan_body ⟨⟨[], true, false⟩, els, e⟩ = ⟨⟨[], true, true⟩, els, e⟩ := rfl

theorem isdigit_toNat (c : Char) : isdigit (c.toNat : Int) = is_digit_char c := rfl

theorem scan_body_skip (c : Char) (cs : List Char) (els : List Int) (e : Int)
    (h : is_digit_char c = false) :
    Vector.scan_body ⟨⟨c :: cs, false, false⟩, els, e⟩ = ⟨⟨cs, false, false⟩, els, e⟩ := by
  have h1 : isdigit (c.toNat : Int) = false := h
  simp [Vector.scan_body, istringstream.peek, istringstream.good, istringstream.get, h1]

theorem scan_body_digit (c : Char) (cs : List Char) (els : List Int) (e : Int)
    (h : is_digit_char c = true)
    (hmax : (istringstream.read_decimal ((c :: cs).takeWhile is_digit_char) : Int) ≤ INT_MAX) :
    Vector.scan_body ⟨⟨c :: cs, false, false⟩, els, e⟩ =
      ⟨⟨(c :: cs).dropWhile is_digit_char, ((c :: cs).dropWhile is_digit_char).isEmpty, false⟩,
        els ++ [(istringstream.read_decimal ((c :: cs).takeWhile is_digit_char) : Int)],
        (istringstream.read_decimal ((c :: cs).takeWhile is_digit_char) : Int)⟩ := by
  have hne : ((c :: cs).takeWhile is_digit_char).isEmpty = false := by
    simp [List.takeWhile_cons, h]
  have h1 : isdigit (c.toNat : Int) = true := h
  have h2 : ¬ INT_MAX < (istringstream.read_decimal (c :: cs.takeWhile is_digit_char) : Int) := by
    simpa [List.takeWhile_cons, h] using hmax
  simp [Vector.scan_body, istringstream.peek, istringstream.good, istringstream.extract_int,
    h1, h, h2]

theorem spec_digit_runs_nil : spec_digit_runs [] = [] := by
  simp [spec_digit_runs]

theorem spec_digit_runs_skip (c : Char) (cs : List Char) (h : is_digit_char c = false) :
    spec_digit_runs (c :: cs) = spec_digit_runs cs := by
  simp [spec_digit_runs, List.splitOnP_cons, h]

theorem spec_digit_runs_run (c : Char) (cs : List Char) (h : is_digit_char c = true) :
    spec_digit_runs (c :: cs) =
      (c :: cs).takeWhile is_digit_char :: spec_digit_runs ((c :: cs).dropWhile is_digit_char) := by
  have hsplit := List.takeWhile_append_dropWhile is_digit_char (c :: cs)
  have hds : ∀ x ∈ (c :: cs).takeWhile is_digit_char, ¬ ((!is_digit_char x) = true) := by
    intro x hx
    simp [List.mem_takeWhile_imp hx]
  have hne : ((c :: cs).takeWhile is_digit_char).isEmpty = false := by
    simp [List.takeWhile_cons, h]
  generalize hd : (c :: cs).takeWhile is_digit_char = ds at hsplit hds hne ⊢
  generalize hr : (c :: cs).dropWhile is_digit_char = rest at hsplit ⊢
  rw [← hsplit]
  cases rest with
  | nil =>
    rw [List.append_nil, spec_digit_runs_nil]
    unfold spec_digit_runs
    rw [List.splitOnP_eq_single _ _ hds]
    simp [hne]
  | cons c1 rest1 =>
    have hc1 : is_digit_char c1 = false := by
      have := List.head_dropWhile_not is_digit_char (c :: cs) (by rw [hr]; simp)
      simpa [hr] using this
    rw [spec_digit_runs_skip c1 rest1 hc1]
    unfold spec_digit_runs
    rw [List.splitOnP_first _ _ hds c1 (by simp [hc1])]
    simp [hne]

theorem scan_continue (fuel : Nat) (s : scan_state) (h : s.iss.failbit = false) :
    Vector.scan (fuel + 1) s = Vector.scan fuel (Vector.scan_body s) := by
  simp [Vector.scan, istringstream.to_bool, h]

theorem scan_leave (fuel : Nat) (s : scan_state) (h : s.iss.failbit = true) :
    Vector.scan (fuel + 1) s = some s.elements := by
  simp [Vector.scan, istringstream.to_bool, h]

theorem scan_at_eof (fuel : Nat) (els : List Int) (e : Int) (b : Bool) :
    Vector.scan (fuel + 2) ⟨⟨[], b, false⟩, els, e⟩ = some els := by
  rw [scan_continue _ _ rfl]
  cases b
  · rw [scan_body_nil, scan_leave _ _ rfl]
  · rw [scan_body_eof, scan_leave _ _ rfl]

theorem scan_spec : ∀ (n : Nat) (text : List Char) (fuel : Nat) (els : List Int) (e : Int),
    text.length ≤ n → text.length + 2 ≤ fuel →
    (∀ r ∈ spec_digit_runs text, (spec_decimal r : Int) ≤ INT_MAX) →
    Vector.scan fuel ⟨⟨text, false, false⟩, els, e⟩ =
      some (els ++ (spec_digit_runs text).map (fun r => (spec_decimal r : Int)))
  | n, [], fuel, els, e, _, hf, _ => by
    obtain ⟨f, rfl⟩ : ∃ f, fuel = f + 2 := ⟨fuel - 2, by simp at hf; omega⟩
    rw [scan_at_eof, spec_digit_runs_nil]
    simp
  | 0, _ :: _, _, _, _, hn, _, _ => by simp at hn
  | n + 1, c :: cs, fuel, els, e, hn, hf, hmax => by
    obtain ⟨f, rfl⟩ : ∃ f, fuel = f + 1 := ⟨fuel - 1, by simp at hf; omega⟩
    rw [scan_continue _ _ rfl]
    cases h : is_digit_char c with
    | false =>
      rw [scan_body_skip c cs els e h, spec_digit_runs_skip c cs h]
      rw [spec_digit_runs_skip c cs h] at hmax
      exact scan_spec n cs f els e (by simpa using hn) (by simp at hf ⊢; omega) hmax
    | true =>
      rw [spec_digit_runs_run c cs h] at hmax ⊢
      have hrun : (istringstream.read_decimal ((c :: cs).takeWhile is_digit_char) : Int)
          ≤ INT_MAX := by
        rw [read_decimal_eq_spec]
        exact hmax _ (List.mem_cons_self _ _)
      have hlen : ((c :: cs).dropWhile is_digit_char).length ≤ cs.length := by
        rw [List.dropWhile_cons_of_pos h]
        exact (List.dropWhile_sublist is_digit_char).length_le
      have hcs : cs.length ≤ n := by simpa using hn
      have hfuel : cs.length + 2 ≤ f := by simp at hf; omega
      rw [scan_body_digit c cs els e h hrun, read_decimal_eq_spec]
      have hrest : ∀ r ∈ spec_digit_runs ((c :: cs).dropWhile is_digit_char),
          (spec_decimal r : Int) ≤ INT_MAX := fun r hr => hmax r (List.mem_cons_of_mem _ hr)
      generalize (c :: cs).dropWhile is_digit_char = rest at hlen hrest ⊢
      cases rest with
      | nil =>
        obtain ⟨g, rfl⟩ : ∃ g, f = g + 2 := ⟨f - 2, by omega⟩
        rw [List.isEmpty_nil, scan_at_eof, spec_digit_runs_nil]
        simp
      | cons c1 rest1 =>
        rw [List.isEmpty_cons]
        rw [scan_spec n (c1 :: rest1) f _ _ (by omega) (by omega) hrest]
        simp

theorem scan_body_digit_iss (c : Char) (cs : List Char) (els : List Int) (e : Int)
    (h : is_digit_char c = true) :
    (Vector.scan_body ⟨⟨c :: cs, false, false⟩, els, e⟩).iss.buf = cs.dropWhile is_digit_char ∧
    (Vector.scan_body ⟨⟨c :: cs, false, false⟩, els, e⟩).iss.eofbit =
      (cs.dropWhile is_digit_char).isEmpty := by
  have h1 : isdigit (c.toNat : Int) = true := h
  by_cases h2 : INT_MAX < (istringstream.read_decimal (c :: cs.takeWhile is_digit_char) : Int)
  · simp [Vector.scan_body, istringstream.peek, istringstream.good, istringstream.extract_int,
      h1, h, h2]
  · simp [Vector.scan_body, istringstream.peek, istringstream.good, istringstream.extract_int,
      h1, h, h2]

theorem scan_body_failed (s : scan_state) (h : s.iss.failbit = true) :
    (Vector.scan_body s).iss = s.iss := by
  obtain ⟨⟨buf, eof, fail⟩, els, e⟩ := s
  simp only at h
  subst h
  simp [Vector.scan_body, istringstream.peek, istringstream.good, istringstream.get, isdigit, EOF]

theorem scan_body_progress (s : scan_state) (hinv : s.iss.eofbit = true → s.iss.buf = [])
    (h : s.iss.failbit = false) :
    (Vector.scan_body s).iss.buf.length < s.iss.buf.length ∨
      (s.iss.buf = [] ∧ (Vector.scan_body s).iss.failbit = true) := by
  obtain ⟨⟨buf, eof, fail⟩, els, e⟩ := s
  simp only at h hinv
  subst h
  cases eof with
  | true =>
    obtain rfl := hinv rfl
    exact Or.inr ⟨rfl, rfl⟩
  | false =>
    cases buf with
    | nil => exact Or.inr ⟨rfl, rfl⟩
    | cons c cs =>
      left
      cases hc : is_digit_char c with
      | false => rw [scan_body_skip c cs els e hc]; simp
      | true =>
        have hlen : (cs.dropWhile is_digit_char).length ≤ cs.length :=
          (List.dropWhile_sublist is_digit_char).length_le
        rw [(scan_body_digit_iss c cs els e hc).1]
        simp only [List.length_cons]
        omega

theorem scan_body_eof_buf (s : scan_state) (hinv : s.iss.eofbit = true → s.iss.buf = []) :
    (Vector.scan_body s).iss.eofbit = true → (Vector.scan_body s).iss.buf = [] := by
  cases hfail : s.iss.failbit with
  | true => rw [scan_body_failed s hfail]; exact hinv
  | false =>
    obtain ⟨⟨buf, eof, fail⟩, els, e⟩ := s
    simp only at hinv hfail
    subst hfail
    cases eof with
    | true =>
      obtain rfl := hinv rfl
      exact fun _ => rfl
    | false =>
      cases buf with
      | nil => exact fun _ => rfl
      | cons c cs =>
        cases hc : is_digit_char c with
        | false => rw [scan_body_skip c cs els e hc]; simp
        | true =>
          rw [(scan_body_digit_iss c cs els e hc).1, (scan_body_digit_iss c cs els e hc).2]
          simp

theorem scan_terminates : ∀ (fuel : Nat) (s : scan_state),
    (s.iss.eofbit = true → s.iss.buf = []) → s.iss.buf.length + 2 ≤ fuel →
    ∃ v, Vector.scan fuel s = some v
  | 0, _, _, hf => by omega
  | fuel + 1, s, hinv, hf => by
    cases hfail : s.iss.failbit with
    | true => exact ⟨_, scan_leave fuel s hfail⟩
    | false =>
      rw [scan_continue fuel s hfail]
      rcases scan_body_progress s hinv hfail with hlt | ⟨_, hend⟩
      · exact scan_terminates fuel _ (scan_body_eof_buf s hinv) (by omega)
      · obtain ⟨g, rfl⟩ : ∃ g, fuel = g + 1 := ⟨fuel - 1, by omega⟩
        exact ⟨_, scan_leave g _ hend⟩

theorem iterate_scan_body_eof_buf (str : String) (k : Nat) :
    (Vector.scan_body^[k] ⟨istringstream.of_string str, [], 0⟩).iss.eofbit = true →
    (Vector.scan_body^[k] ⟨istringstream.of_string str, [], 0⟩).iss.buf = [] := by
  induction k with
  | zero => intro h; cases h
  | succ k ih =>
    rw [Function.iterate_succ_apply']
    exact scan_body_eof_buf _ ih

/-- C3 fails as stated: the text `2147483648,5` has the two digit runs `2147483648` and `5`,
but the extraction of the first run overflows `int`, stores `INT_MAX` and sets `failbit`,
so the loop is left with the single element `2147483647`.  Hence the constructor does not
yield the run values, and not even as many elements as there are runs, for every text. -/
theorem from_string_digit_runs_overflow :
    Vector.from_string "2147483648,5" = some ⟨[2147483647]⟩ ∧
    (spec_digit_runs "2147483648,5".data).map (fun r => (spec_decimal r : Int))
      = [2147483648, 5] ∧
    ¬ (∀ str : String, ∃ v, Vector.from_string str = some v ∧
        v.v_ = (spec_digit_runs str.data).map (fun r => (spec_decimal r : Int)) ∧
        v.size = (spec_digit_runs str.data).length) := by
  refine ⟨by decide, by decide, ?_⟩
  intro h
  obtain ⟨v, hv, _, hsize⟩ := h "2147483648,5"
  have h1 : Vector.from_string "2147483648,5" = some ⟨[2147483647]⟩ := by decide
  rw [h1] at hv
  cases hv
  revert hsize
  decide

/-- C3 (amended): for every text whose digit runs all denote values of at most `INT_MAX`,
the string constructor yields exactly the values of the maximal runs of digit characters,
each read as one unsigned decimal integer, in order of appearance, and the length of the
vector is the number of runs. -/
theorem from_string_digit_runs (str : String)
    (h : ∀ r ∈ spec_digit_runs str.data, (spec_decimal r : Int) ≤ INT_MAX) :
    ∃ v, Vector.from_string str = some v ∧
      v.v_ = (spec_digit_runs str.data).map (fun r => (spec_decimal r : Int)) ∧
      v.size = (spec_digit_runs str.data).length := by
  refine ⟨⟨(spec_digit_runs str.data).map (fun r => (spec_decimal r : Int))⟩, ?_, rfl, ?_⟩
  · have hscan := scan_spec str.data.length str.data (str.length + 2) [] 0 (le_refl _)
      (le_refl _) h
    simp only [Vector.from_string, istringstream.of_string, hscan, List.nil_append, Option.map_some']
  · simp [Vector.size]

theorem from_string_digit_runs_witness :
    (∀ r ∈ spec_digit_runs "12ab 7,2147483647".data, (spec_decimal r : Int) ≤ INT_MAX) ∧
    ∃ v, Vector.from_string "12ab 7,2147483647" = some v ∧
      v.v_ = (spec_digit_runs "12ab 7,2147483647".data).map (fun r => (spec_decimal r : Int)) ∧
      v.size = (spec_digit_runs "12ab 7,2147483647".data).length :=
  ⟨by decide, from_string_digit_runs "12ab 7,2147483647" (by decide)⟩

/-- C4: the text `1,2,3` gives the vector `[1,2,3]`, the text `a-1b--2` gives `[1,2]`
(the minus signs are dropped like any other separator), and the empty text gives the
vector of length zero. -/
theorem from_string_examples :
    Vector.from_string "1,2,3" = some ⟨[1, 2, 3]⟩ ∧
    (∃ v, Vector.from_string "1,2,3" = some v ∧ v.size = 3) ∧
    Vector.from_string "a-1b--2" = some ⟨[1, 2]⟩ ∧
    Vector.from_string "" = some ⟨[]⟩ ∧
    (∃ v, Vector.from_string "" = some v ∧ v.size = 0) := by
  refine ⟨by decide, ⟨⟨[1, 2, 3]⟩, by decide, by decide⟩, by decide, by decide,
    ⟨⟨[]⟩, by decide, by decide⟩⟩

/-- C5: the string constructor returns a vector for every text: the loop `while (iss)` is
left within `str.length + 2` tests of its condition.  In every iteration that is executed the
number of unread characters strictly decreases, or the input is at its end and the
iteration sets `failbit`, which ends the loop. -/
theorem from_string_total (str : String) :
    (∃ v, Vector.from_string str = some v) ∧
    (∀ k : Nat,
      (Vector.scan_body^[k] ⟨istringstream.of_string str, [], 0⟩).iss.to_bool = true →
      (Vector.scan_body^[k + 1] ⟨istringstream.of_string str, [], 0⟩).iss.buf.length
          < (Vector.scan_body^[k] ⟨istringstream.of_string str, [], 0⟩).iss.buf.length ∨
        ((Vector.scan_body^[k] ⟨istringstream.of_string str, [], 0⟩).iss.buf = [] ∧
          (Vector.scan_body^[k + 1] ⟨istringstream.of_string str, [], 0⟩).iss.to_bool
            = false)) := by
  constructor
  · obtain ⟨v, hv⟩ := scan_terminates (str.length + 2) ⟨istringstream.of_string str, [], 0⟩
      (by intro h; cases h) (le_refl _)
    exact ⟨⟨v⟩, by simp [Vector.from_string, hv]⟩
  · intro k hk
    rw [Function.iterate_succ_apply']
    have hfail : (Vector.scan_body^[k] ⟨istringstream.of_string str, [], 0⟩).iss.failbit
        = false := by
      simpa [istringstream.to_bool] using hk
    rcases scan_body_progress _ (iterate_scan_body_eof_buf str k) hfail with hlt | ⟨hnil, hend⟩
    · exact Or.inl hlt
    · exact Or.inr ⟨hnil, by simp [istringstream.to_bool, hend]⟩

theorem from_string_total_witness :
    (∃ v, Vector.from_string "a1" = some v) ∧
    (Vector.scan_body^[2] ⟨istringstream.of_string "a1", [], 0⟩).iss.to_bool = true ∧
    ((Vector.scan_body^[3] ⟨istringstream.of_string "a1", [], 0⟩).iss.buf.length
          < (Vector.scan_body^[2] ⟨istringstream.of_string "a1", [], 0⟩).iss.buf.length ∨
        ((Vector.scan_body^[2] ⟨istringstream.of_string "a1", [], 0⟩).iss.buf = [] ∧
          (Vector.scan_body^[3] ⟨istringstream.of_string "a1", [], 0⟩).iss.to_bool
            = false)) :=
  ⟨(from_string_total "a1").1, by decide, (from_string_total "a1").2 2 (by decide)⟩

/-! ## Rendering -/

theorem intercalate_go_append (sep x : String) :
    ∀ (l : List String) (acc : String),
      String.intercalate.go (x ++ acc) sep l = x ++ String.intercalate.go acc sep l
  | [], _ => rfl
  | a :: l, acc => by
    simp only [String.intercalate.go]
    rw [← intercalate_go_append sep x l (acc ++ sep ++ a)]
    simp only [String.append_assoc]

theorem intercalate_cons_cons (sep a b : String) (l : List String) :
    sep.intercalate (a :: b :: l) = a ++ sep ++ sep.intercalate (b :: l) := by
  simp only [String.intercalate, String.intercalate.go]
  rw [intercalate_go_append sep (a ++ sep) l b]

theorem to_string_loop_eq : ∀ (xs : List Int) (oss : String), xs ≠ [] →
    to_string_loop xs oss = oss ++ " " ++ ", ".intercalate (xs.map int_to_string) ++ " "
  | [], _, h => absurd rfl h
  | [x], oss, _ => by
    simp [to_string_loop, String.intercalate, String.intercalate.go]
  | x :: y :: ys, oss, _ => by
    rw [to_string_loop, to_string_loop_eq (y :: ys) _ (List.cons_ne_nil _ _)]
    simp only [List.map_cons]
    rw [intercalate_cons_cons]
    have hsep : (", " : String) = "," ++ " " := rfl
    rw [hsep]
    simp [String.append_assoc]

/-- C6: `to_string v` is `[]` for the empty vector; otherwise it is `[ `, then the decimal
renderings of the elements in index order separated by `, `, then ` ]`.  The vector
`[1,2,3]` is rendered `[ 1, 2, 3 ]`. -/
theorem to_string_format :
    (∀ v : Vector, to_string v =
      if v.v_.isEmpty then "[]"
      else "[ " ++ ", ".intercalate (v.v_.map int_to_string) ++ " ]") ∧
    to_string ⟨[1, 2, 3]⟩ = "[ 1, 2, 3 ]" ∧
    to_string (Vector.of_size 0) = "[]" := by
  refine ⟨?_, by decide, by decide⟩
  rintro ⟨xs⟩
  cases xs with
  | nil => rfl
  | cons x xs =>
    simp only [to_string, List.isEmpty_cons, Bool.false_eq_true, if_false]
    rw [to_string_loop_eq (x :: xs) _ (List.cons_ne_nil _ _)]
    have h1 : ("[ " : String) = "[" ++ " " := rfl
    have h2 : (" ]" : String) = " " ++ "]" := rfl
    rw [h1, h2]
    simp only [String.append_assoc]

theorem join_foldl_append (l : List String) : ∀ (acc : String),
    l.foldl (fun r s => r ++ s) acc = acc ++ l.foldl (fun r s => r ++ s) "" := by
  induction l with
  | nil => intro acc; simp
  | cons a l ih =>
    intro acc
    rw [List.foldl_cons, List.foldl_cons, ih (acc ++ a), ih ("" ++ a)]
    simp [String.append_assoc]

theorem join_cons (a : String) (l : List String) :
    String.join (a :: l) = a ++ String.join l := by
  unfold String.join
  rw [List.foldl_cons, join_foldl_append l ("" ++ a)]
  simp

theorem to_string_matrix_loop_eq : ∀ (rs : List Vector) (oss : String) (k n : Nat),
    n = k + rs.length →
    to_string_matrix_loop rs oss = oss ++ String.join ((rs.enumFrom k).map (fun p =>
      "  " ++ to_string p.2 ++ (if p.1 + 1 < n then "," else "") ++ "\n"))
  | [], oss, _, _, _ => by simp [to_string_matrix_loop, String.join]
  | r :: rs, oss, k, n, hn => by
    have hn1 : n = (k + 1) + rs.length := by simp at hn; omega
    rw [to_string_matrix_loop, to_string_matrix_loop_eq rs _ (k + 1) n hn1]
    rw [List.enumFrom_cons, List.map_cons, join_cons]
    have hcomma : (if rs.isEmpty then ("" : String) else ",") =
        (if k + 1 < n then "," else "") := by
      cases rs with
      | nil => simp at hn1; simp [hn1]
      | cons r1 rs1 => simp at hn1; simp [hn1]
    rw [hcomma]
    simp only [String.append_assoc]

/-- C7: `to_string_matrix m` is `[` and a newline, then for each row in index order two
spaces, the rendering of the row, a comma unless the row is the last one, and a newline,
then `]`.  The matrix with rows `[1,2]` and `[3,4]` is rendered as the three-line block
`[`, `  [ 1, 2 ],`, `  [ 3, 4 ]`, `]`. -/
theorem to_string_matrix_format :
    (∀ m : Matrix, to_string_matrix m =
      "[" ++ "\n" ++ String.join (m.matrix_.enum.map (fun p =>
        "  " ++ to_string p.2 ++ (if p.1 + 1 < m.size then "," else "") ++ "\n")) ++ "]") ∧
    to_string_matrix (Matrix.from_rows [[1, 2], [3, 4]]) = "[\n  [ 1, 2 ],\n  [ 3, 4 ]\n]" := by
  refine ⟨?_, by decide⟩
  intro m
  unfold to_string_matrix
  rw [to_string_matrix_loop_eq m.matrix_ _ 0 m.size (by simp [Matrix.size])]
  rfl

/-! ## Addition of matrices -/

theorem transform_add_vectors_ok : ∀ (r1 r2 ds : List Vector),
    r1.length = r2.length → r1.length = ds.length →
    (∀ (i : Nat) (a b : Vector), r1[i]? = some a → r2[i]? = some b → a.size = b.size) →
    transform add_vectors r1 r2 ds =
      .ok (List.zipWith (fun a b => (⟨List.zipWith plus a.v_ b.v_⟩ : Vector)) r1 r2)
  | [], [], [], _, _, _ => rfl
  | a :: r1, b :: r2, d :: ds, h1, h2, h => by
    have hab : a.size = b.size := h 0 a b (by simp) (by simp)
    have ih := transform_add_vectors_ok r1 r2 ds (by simpa using h1) (by simpa using h2)
      (fun i x y hx hy => h (i + 1) x y (by simpa using hx) (by simpa using hy))
    simp [transform, add_vectors_eq_zipWith a b hab, ih]

/-- C8: for matrices `m1`, `m2` with the same number of rows whose rows have pairwise equal
sizes, `add_matrices m1 m2` succeeds with a matrix of that many rows; its row `i` is the
result of `add_vectors` on the rows `i` of `m1` and `m2`, so that the element `j` of row `i`
is the `int` sum `plus` of the elements `j` of those rows. -/
theorem add_matrices_elementwise (m1 m2 : Matrix)
    (hrows : m1.size = m2.size)
    (hcols : ∀ (i : Nat) (a b : Vector), m1.matrix_[i]? = some a → m2.matrix_[i]? = some b → a.size = b.size) :
    ∃ r, add_matrices m1 m2 = .ok r ∧ r.size = m1.size ∧
      ∀ i, i < m1.size → ∃ (a b row : Vector), m1.matrix_[i]? = some a ∧ m2.matrix_[i]? = some b ∧
        r.matrix_[i]? = some row ∧ add_vectors a b = .ok row ∧
        ∀ j, j < a.size → ∃ x y, a.v_[j]? = some x ∧ b.v_[j]? = some y ∧
          row.v_[j]? = some (plus x y) := by
  have hlen : m1.matrix_.length = m2.matrix_.length := hrows
  refine ⟨⟨List.zipWith (fun a b => (⟨List.zipWith plus a.v_ b.v_⟩ : Vector))
    m1.matrix_ m2.matrix_⟩, ?_, ?_, ?_⟩
  · simp [add_matrices, transform_add_vectors_ok m1.matrix_ m2.matrix_ m1.matrix_ hlen rfl hcols]
  · simp [Matrix.size, hlen]
  · intro i hi
    have hi1 : i < m1.matrix_.length := hi
    have hi2 : i < m2.matrix_.length := hlen ▸ hi1
    have ha := List.getElem?_eq_getElem hi1
    have hb := List.getElem?_eq_getElem hi2
    have hab : (m1.matrix_[i]).size = (m2.matrix_[i]).size := hcols i _ _ ha hb
    refine ⟨m1.matrix_[i], m2.matrix_[i], ⟨List.zipWith plus (m1.matrix_[i]).v_ (m2.matrix_[i]).v_⟩,
      ha, hb, ?_, add_vectors_eq_zipWith _ _ hab, ?_⟩
    · simp [List.getElem?_zipWith, ha, hb]
    · intro j hj
      have hj1 : j < (m1.matrix_[i]).v_.length := hj
      have hj2 : j < (m2.matrix_[i]).v_.length := by
        have : (m1.matrix_[i]).v_.length = (m2.matrix_[i]).v_.length := hab
        omega
      refine ⟨(m1.matrix_[i]).v_[j], (m2.matrix_[i]).v_[j], List.getElem?_eq_getElem hj1,
        List.getElem?_eq_getElem hj2, ?_⟩
      simp [List.getElem?_zipWith, List.getElem?_eq_getElem hj1, List.getElem?_eq_getElem hj2]

theorem add_matrices_elementwise_witness :
    ∃ r, add_matrices (Matrix.from_rows [[1, 2], [3]]) (Matrix.from_rows [[10, 20], [30]])
        = .ok r ∧ r.size = (Matrix.from_rows [[1, 2], [3]]).size ∧
      ∀ i, i < (Matrix.from_rows [[1, 2], [3]]).size → ∃ (a b row : Vector),
        (Matrix.from_rows [[1, 2], [3]]).matrix_[i]? = some a ∧
        (Matrix.from_rows [[10, 20], [30]]).matrix_[i]? = some b ∧
        r.matrix_[i]? = some row ∧ add_vectors a b = .ok row ∧
        ∀ j, j < a.size → ∃ x y, a.v_[j]? = some x ∧ b.v_[j]? = some y ∧
          row.v_[j]? = some (plus x y) :=
  add_matrices_elementwise (Matrix.from_rows [[1, 2], [3]]) (Matrix.from_rows [[10, 20], [30]])
    (by decide) (by
      intro i a b ha hb
      match i, ha, hb with
      | 0, ha, hb => cases ha; cases hb; rfl
      | 1, ha, hb => cases ha; cases hb; rfl
      | _ + 2, ha, _ => cases ha)

/-- C9 on the code: when `m2` has more rows than `m1` the surplus rows of `m2` are ignored
and a matrix is returned; when `m2` has fewer rows than `m1` the traversal reads past the
end of `m2`.  In neither direction is `std::invalid_argument` thrown. -/
theorem add_matrices_row_count_unchecked :
    (Matrix.from_rows [[1]]).size ≠ (Matrix.from_rows [[1], [2]]).size ∧
    add_matrices (Matrix.from_rows [[1]]) (Matrix.from_rows [[1], [2]])
      = .ok (Matrix.from_rows [[2]]) ∧
    add_matrices (Matrix.from_rows [[1], [2]]) (Matrix.from_rows [[1]])
      = .error .undefined_behaviour := by
  decide

theorem transform_first_mismatch : ∀ (r1 r2 ds : List Vector),
    r1.length = ds.length →
    (∃ (i : Nat) (a b : Vector), r1[i]? = some a ∧ r2[i]? = some b ∧ a.size ≠ b.size) →
    ∃ (i : Nat) (a b : Vector), r1[i]? = some a ∧ r2[i]? = some b ∧ a.size ≠ b.size ∧
      (∀ (j : Nat) (x y : Vector), j < i → r1[j]? = some x → r2[j]? = some y → x.size = y.size) ∧
      transform add_vectors r1 r2 ds = .error (.invalid_argument
        ("Vectors of unequal size (" ++ Nat.repr a.size ++ " and " ++ Nat.repr b.size ++ ")"))
  | [], _, _, _, ⟨i, a, b, ha, _⟩ => by simp at ha
  | _ :: _, [], _, _, ⟨i, a, b, _, hb, _⟩ => by simp at hb
  | _ :: _, _ :: _, [], h2, _ => by simp at h2
  | a0 :: r1, b0 :: r2, d :: ds, h2, ⟨i, a, b, ha, hb, hne⟩ => by
    by_cases h0 : a0.size = b0.size
    · match i, ha, hb with
      | 0, ha, hb =>
        simp only [List.getElem?_cons_zero, Option.some.injEq] at ha hb
        subst ha hb
        exact absurd h0 hne
      | i + 1, ha, hb =>
        simp only [List.getElem?_cons_succ] at ha hb
        obtain ⟨k, x, y, hx, hy, hxy, hfirst, herr⟩ :=
          transform_first_mismatch r1 r2 ds (by simpa using h2) ⟨i, a, b, ha, hb, hne⟩
        refine ⟨k + 1, x, y, by simpa using hx, by simpa using hy, hxy, ?_, ?_⟩
        · intro j u v hj hu hv
          match j, hu, hv with
          | 0, hu, hv =>
            simp only [List.getElem?_cons_zero, Option.some.injEq] at hu hv
            subst hu hv
            exact h0
          | j + 1, hu, hv =>
            exact hfirst j u v (by omega) (by simpa using hu) (by simpa using hv)
        · simp [transform, add_vectors_eq_zipWith a0 b0 h0, herr]
    · refine ⟨0, a0, b0, by simp, by simp, h0, fun j _ _ hj => absurd hj (Nat.not_lt_zero j), ?_⟩
      simp [transform, (add_vectors_fails_iff_aux a0 b0 h0)]

/-- C10: for matrices with the same number of rows, if some pair of rows at the same index
differs in size, `add_matrices` fails: there is a first such index, and the error is the one
`add_vectors` throws for the rows at that index, `std::invalid_argument` with the text
`Vectors of unequal size (L1 and L2)` for their sizes.  The result is the error alone; no
matrix is returned. -/
theorem add_matrices_row_mismatch (m1 m2 : Matrix) (hrows : m1.size = m2.size)
    (h : ∃ (i : Nat) (a b : Vector),
      m1.matrix_[i]? = some a ∧ m2.matrix_[i]? = some b ∧ a.size ≠ b.size) :
    ∃ (i : Nat) (a b : Vector),
      m1.matrix_[i]? = some a ∧ m2.matrix_[i]? = some b ∧ a.size ≠ b.size ∧
      (∀ (j : Nat) (x y : Vector), j < i →
        m1.matrix_[j]? = some x → m2.matrix_[j]? = some y → x.size = y.size) ∧
      add_matrices m1 m2 = .error (.invalid_argument
        ("Vectors of unequal size (" ++ Nat.repr a.size ++ " and " ++ Nat.repr b.size ++ ")")) ∧
      (∃ e, add_vectors a b = .error e ∧ add_matrices m1 m2 = .error e) ∧
      (∀ r : Matrix, add_matrices m1 m2 ≠ .ok r) := by
  have _ := hrows
  obtain ⟨i, a, b, ha, hb, hne, hfirst, herr⟩ :=
    transform_first_mismatch m1.matrix_ m2.matrix_ m1.matrix_ rfl h
  have hadd : add_matrices m1 m2 = .error (.invalid_argument
      ("Vectors of unequal size (" ++ Nat.repr a.size ++ " and " ++ Nat.repr b.size ++ ")")) := by
    simp [add_matrices, herr]
  refine ⟨i, a, b, ha, hb, hne, hfirst, hadd, ⟨_, add_vectors_fails_iff_aux a b hne, hadd⟩, ?_⟩
  intro r hr
  rw [hadd] at hr
  cases hr

theorem add_matrices_row_mismatch_witness :
    add_matrices (Matrix.from_rows [[1, 2], [3], [4]])
        (Matrix.from_rows [[5, 6], [7, 8], [9, 1, 1]])
      = .error (.invalid_argument "Vectors of unequal size (1 and 2)") ∧
    ∃ (i : Nat) (a b : Vector),
      (Matrix.from_rows [[1, 2], [3], [4]]).matrix_[i]? = some a ∧
      (Matrix.from_rows [[5, 6], [7, 8], [9, 1, 1]]).matrix_[i]? = some b ∧
      a.size ≠ b.size ∧
      (∀ (j : Nat) (x y : Vector), j < i →
        (Matrix.from_rows [[1, 2], [3], [4]]).matrix_[j]? = some x →
        (Matrix.from_rows [[5, 6], [7, 8], [9, 1, 1]]).matrix_[j]? = some y →
        x.size = y.size) ∧
      add_matrices (Matrix.from_rows [[1, 2], [3], [4]])
          (Matrix.from_rows [[5, 6], [7, 8], [9, 1, 1]])
        = .error (.invalid_argument
          ("Vectors of unequal size (" ++ Nat.repr a.size ++ " and " ++ Nat.repr b.size ++ ")")) ∧
      (∃ e, add_vectors a b = .error e ∧
        add_matrices (Matrix.from_rows [[1, 2], [3], [4]])
          (Matrix.from_rows [[5, 6], [7, 8], [9, 1, 1]]) = .error e) ∧
      (∀ r : Matrix, add_matrices (Matrix.from_rows [[1, 2], [3], [4]])
          (Matrix.from_rows [[5, 6], [7, 8], [9, 1, 1]]) ≠ .ok r) :=
  ⟨by decide,
    add_matrices_row_mismatch (Matrix.from_rows [[1, 2], [3], [4]])
      (Matrix.from_rows [[5, 6], [7, 8], [9, 1, 1]]) (by decide)
      ⟨2, ⟨[4]⟩, ⟨[9, 1, 1]⟩, by decide, by decide, by decide⟩⟩

/-! ## Indexed access -/

/-- C11 fails as stated: index 5 on the vector `[1,2,3]` is read and written without any
check, and so is row index 2 on a matrix of two rows; the outcome is undefined behaviour,
not a thrown exception.  Hence it is false that every out-of-range access ends in an error
that is an exception. -/
theorem subscript_out_of_range_unchecked :
    Vector.subscript ⟨[1, 2, 3]⟩ 5 = .error .undefined_behaviour ∧
    Vector.subscript_set ⟨[1, 2, 3]⟩ 5 0 = .error .undefined_behaviour ∧
    Matrix.subscript (Matrix.from_rows [[1], [2]]) 2 = .error .undefined_behaviour ∧
    ¬ (∀ (v : Vector) (i : Nat), v.size ≤ i →
        ∃ e, Vector.subscript v i = .error e ∧ e.is_exception = true) := by
  refine ⟨by decide, by decide, by decide, ?_⟩
  intro h
  obtain ⟨e, he, hexc⟩ := h ⟨[1, 2, 3]⟩ 5 (by decide)
  have h1 : Vector.subscript ⟨[1, 2, 3]⟩ 5 = .error .undefined_behaviour := by decide
  rw [h1] at he
  cases he
  cases hexc

/-- C11 (amended): indexed access is not bounds-checked.  For an index `i` below the size,
reading `v[i]` gives the element at `i`, writing `v[i] = x` replaces that element and nothing
else, and `m[i]` gives row `i`.  For an index `i` at or above the size no exception is
raised: the read and the write are undefined behaviour. -/
theorem subscript_unchecked (v : Vector) (m : Matrix) (i : Nat) (x : Int) :
    (i < v.size → ∃ e, v.v_[i]? = some e ∧ v.subscript i = .ok e ∧
      ∃ w, v.subscript_set i x = .ok w ∧ w.size = v.size ∧ w.v_[i]? = some x ∧
        ∀ j, j ≠ i → w.v_[j]? = v.v_[j]?) ∧
    (v.size ≤ i → v.subscript i = .error .undefined_behaviour ∧
      v.subscript_set i x = .error .undefined_behaviour) ∧
    (i < m.size → ∃ row, m.matrix_[i]? = some row ∧ m.subscript i = .ok row) ∧
    (m.size ≤ i → m.subscript i = .error .undefined_behaviour) := by
  refine ⟨?_, ?_, ?_, ?_⟩
  · intro hi
    have hi1 : i < v.v_.length := hi
    refine ⟨v.v_[i], List.getElem?_eq_getElem hi1, ?_, ⟨v.v_.set i x⟩, ?_, ?_, ?_, ?_⟩
    · simp [Vector.subscript, List.getElem?_eq_getElem hi1]
    · simp [Vector.subscript_set, hi1]
    · simp [Vector.size]
    · exact List.getElem?_set_self hi1
    · intro j hj
      exact List.getElem?_set_ne (Ne.symm hj)
  · intro hi
    have hi1 : v.v_.length ≤ i := hi
    constructor
    · simp [Vector.subscript, List.getElem?_eq_none hi1]
    · simp [Vector.subscript_set, Nat.not_lt.mpr hi1]
  · intro hi
    have hi1 : i < m.matrix_.length := hi
    exact ⟨m.matrix_[i], List.getElem?_eq_getElem hi1,
      by simp [Matrix.subscript, List.getElem?_eq_getElem hi1]⟩
  · intro hi
    have hi1 : m.matrix_.length ≤ i := hi
    simp [Matrix.subscript, List.getElem?_eq_none hi1]

theorem subscript_unchecked_witness :
    (1 < (⟨[1, 2, 3]⟩ : Vector).size ∧ (⟨[1, 2, 3]⟩ : Vector).size ≤ 5) ∧
    Vector.subscript ⟨[1, 2, 3]⟩ 5 = .error .undefined_behaviour ∧
    Vector.subscript_set ⟨[1, 2, 3]⟩ 5 9 = .error .undefined_behaviour ∧
    ∃ e, (⟨[1, 2, 3]⟩ : Vector).v_[1]? = some e ∧ Vector.subscript ⟨[1, 2, 3]⟩ 1 = .ok e ∧
      ∃ w, Vector.subscript_set ⟨[1, 2, 3]⟩ 1 9 = .ok w ∧ w.size = (⟨[1, 2, 3]⟩ : Vector).size ∧
        w.v_[1]? = some 9 ∧ ∀ j, j ≠ 1 → w.v_[j]? = (⟨[1, 2, 3]⟩ : Vector).v_[j]? :=
  ⟨⟨by decide, by decide⟩,
    ((subscript_unchecked ⟨[1, 2, 3]⟩ ⟨[]⟩ 5 9).2.1 (by decide)).1,
    ((subscript_unchecked ⟨[1, 2, 3]⟩ ⟨[]⟩ 5 9).2.1 (by decide)).2,
    (subscript_unchecked ⟨[1, 2, 3]⟩ ⟨[]⟩ 1 9).1 (by decide)⟩

/-! ## Sums -/

theorem wrap_int_add_left (a b : Int) : wrap_int (wrap_int a + b) = wrap_int (a + b) := by
  unfold wrap_int
  omega

theorem wrap_int_add_right (a b : Int) : wrap_int (a + wrap_int b) = wrap_int (a + b) := by
  unfold wrap_int
  omega

theorem wrap_int_of_range (a : Int) (h1 : INT_MIN ≤ a) (h2 : a ≤ INT_MAX) : wrap_int a = a := by
  unfold wrap_int
  unfold INT_MIN at h1
  unfold INT_MAX at h2
  omega

theorem foldl_plus_wrap : ∀ (xs : List Int) (a : Int),
    xs.foldl plus (wrap_int a) = wrap_int (a + xs.sum)
  | [], a => by simp
  | x :: xs, a => by
    rw [List.foldl_cons]
    have h : plus (wrap_int a) x = wrap_int (a + x) := wrap_int_add_left a x
    rw [h, foldl_plus_wrap xs (a + x), List.sum_cons, add_assoc]

theorem vector_sum_wrap (v : Vector) : v.sum = wrap_int v.v_.sum := by
  have h := foldl_plus_wrap v.v_ 0
  have h0 : wrap_int 0 = 0 := by decide
  rw [h0, zero_add] at h
  exact h

/-- C12: `v.sum()` is the sum of the elements in `int` arithmetic: the mathematical sum
reduced to the 32-bit range, hence the mathematical sum itself when that lies in the `int`
range.  It is `0` for the empty vector and `6` for `[1,2,3]`. -/
theorem vector_sum_eq (v : Vector) :
    v.sum = wrap_int v.v_.sum ∧
    (INT_MIN ≤ v.v_.sum → v.v_.sum ≤ INT_MAX → v.sum = v.v_.sum) ∧
    (Vector.mk []).sum = 0 ∧
    (Vector.mk [1, 2, 3]).sum = 6 := by
  refine ⟨vector_sum_wrap v, ?_, by decide, by decide⟩
  intro h1 h2
  rw [vector_sum_wrap v, wrap_int_of_range _ h1 h2]

theorem vector_sum_eq_witness :
    (Vector.mk [1, 2, 3]).sum = ([1, 2, 3] : List Int).sum ∧
    (Vector.mk [1, 2, 3]).sum = 6 :=
  ⟨(vector_sum_eq ⟨[1, 2, 3]⟩).2.1 (by decide) (by decide), (vector_sum_eq ⟨[1, 2, 3]⟩).2.2.2⟩

theorem wrap_int_sum_map_wrap : ∀ (l : List Int),
    wrap_int ((l.map wrap_int).sum) = wrap_int l.sum
  | [] => rfl
  | x :: l => by
    rw [List.map_cons, List.sum_cons, List.sum_cons]
    calc wrap_int (wrap_int x + (l.map wrap_int).sum)
        = wrap_int (x + (l.map wrap_int).sum) := wrap_int_add_left _ _
      _ = wrap_int (x + wrap_int ((l.map wrap_int).sum)) := (wrap_int_add_right _ _).symm
      _ = wrap_int (x + wrap_int l.sum) := by rw [wrap_int_sum_map_wrap l]
      _ = wrap_int (x + l.sum) := wrap_int_add_right _ _

theorem matrix_sum_wrap (m : Matrix) : m.sum = wrap_int ((m.matrix_.map Vector.sum).sum) := by
  have h := foldl_plus_wrap (m.matrix_.map Vector.sum) 0
  have h0 : wrap_int 0 = 0 := by decide
  rw [h0, zero_add, List.foldl_map] at h
  exact h

/-- C13: `m.sum()` is the sum over the rows of `row.sum()`, in `int` arithmetic, for rows
of any lengths; it equals `sum()` of the vector formed by concatenating the rows, which is
the mathematical sum of all elements reduced to the 32-bit range.  The matrix with the rows
`[1,2]` and `[3,4]` has the sum `10`. -/
theorem matrix_sum_eq (m : Matrix) :
    m.sum = wrap_int ((m.matrix_.map Vector.sum).sum) ∧
    m.sum = (Vector.mk (m.matrix_.map Vector.v_).flatten).sum ∧
    m.sum = wrap_int ((m.matrix_.map Vector.v_).flatten.sum) ∧
    (Matrix.from_rows [[1, 2], [3, 4]]).sum = 10 ∧
    (Matrix.from_rows [[1, 2, 3], [], [4]]).sum = 10 := by
  have hflat : m.sum = wrap_int ((m.matrix_.map Vector.v_).flatten.sum) := by
    rw [matrix_sum_wrap, List.sum_flatten, List.map_map]
    have hrows : m.matrix_.map Vector.sum
        = (m.matrix_.map (List.sum ∘ Vector.v_)).map wrap_int := by
      rw [List.map_map]
      apply List.map_congr_left
      intro v _
      exact vector_sum_wrap v
    rw [hrows, wrap_int_sum_map_wrap]
  refine ⟨matrix_sum_wrap m, ?_, hflat, by decide, by decide⟩
  rw [vector_sum_wrap, hflat]

/-! ## Sized constructors and construction from rows -/

/-- C14: `Matrix.of_size r c` has exactly `r` rows, each a vector of length `c` whose
elements are all zero; `Vector.of_size n` has length `n` (also for `n = 0`) with all elements
zero; the sized constructor without argument gives length 3. -/
theorem sized_constructors (r c n : Nat) :
    (Matrix.of_size r c).size = r ∧
    (∀ i, i < r → ∃ row, (Matrix.of_size r c).matrix_[i]? = some row ∧ row.size = c ∧
      ∀ j, j < c → row.v_[j]? = some 0) ∧
    (Vector.of_size n).size = n ∧
    (∀ j, j < n → (Vector.of_size n).v_[j]? = some 0) ∧
    (Vector.of_size 0).size = 0 ∧
    Vector.default_ctor.size = 3 ∧
    Vector.default_ctor = ⟨[0, 0, 0]⟩ := by
  refine ⟨by simp [Matrix.of_size, Matrix.size], ?_, by simp [Vector.of_size, Vector.size], ?_,
    by decide, by decide, by decide⟩
  · intro i hi
    refine ⟨Vector.of_size c, ?_, by simp [Vector.of_size, Vector.size], ?_⟩
    · simp [Matrix.of_size, List.getElem?_replicate, hi]
    · intro j hj
      simp [Vector.of_size, List.getElem?_replicate, hj]
  · intro j hj
    simp [Vector.of_size, List.getElem?_replicate, hj]

theorem sized_constructors_witness :
    ∃ row, (Matrix.of_size 2 3).matrix_[1]? = some row ∧ row.size = 3 ∧
      ∀ j, j < 3 → row.v_[j]? = some 0 :=
  (sized_constructors 2 3 0).2.1 1 (by decide)

theorem from_rows_foldl : ∀ (rows : List (List Int)) (acc : List Vector),
    rows.foldl (fun acc row => acc ++ [Vector.mk row]) acc = acc ++ rows.map Vector.mk
  | [], acc => by simp
  | row :: rows, acc => by
    rw [List.foldl_cons, from_rows_foldl rows]
    simp

theorem from_rows_eq_map (rows : List (List Int)) :
    Matrix.from_rows rows = ⟨rows.map Vector.mk⟩ := by
  simp [Matrix.from_rows, from_rows_foldl]

/-- C15: `Matrix.from_rows rows` has as many rows as `rows`, and its row `i` has the same
length and the same elements in the same order as `rows[i]`; rows of differing lengths are
kept as they are. -/
theorem from_rows_rows (rows : List (List Int)) :
    (Matrix.from_rows rows).size = rows.length ∧
    (∀ i, i < rows.length → ∃ (row : List Int) (r : Vector),
      rows[i]? = some row ∧ (Matrix.from_rows rows).matrix_[i]? = some r ∧
      r.v_ = row ∧ r.size = row.length) ∧
    Matrix.from_rows [[1, 2, 3], [], [4]] = ⟨[⟨[1, 2, 3]⟩, ⟨[]⟩, ⟨[4]⟩]⟩ := by
  refine ⟨by simp [from_rows_eq_map, Matrix.size], ?_, by decide⟩
  intro i hi
  refine ⟨rows[i], ⟨rows[i]⟩, List.getElem?_eq_getElem hi, ?_, rfl, rfl⟩
  simp [from_rows_eq_map, List.getElem?_map, List.getElem?_eq_getElem hi]

theorem from_rows_rows_witness :
    ∃ (row : List Int) (r : Vector),
      ([[1, 2, 3], [], [4]] : List (List Int))[2]? = some row ∧
      (Matrix.from_rows [[1, 2, 3], [], [4]]).matrix_[2]? = some r ∧
      r.v_ = row ∧ r.size = row.length :=
  (from_rows_rows [[1, 2, 3], [], [4]]).2.1 2 (by decide)

/-! ## Algebra of `add_vectors` -/

theorem wrap_int_congr_add (a b c d : Int) (h1 : wrap_int a = wrap_int b)
    (h2 : wrap_int c = wrap_int d) : wrap_int (a + c) = wrap_int (b + d) := by
  unfold wrap_int at *
  omega

theorem wrap_int_idem (a : Int) : wrap_int (wrap_int a) = wrap_int a := by
  unfold wrap_int
  omega

theorem wrap_int_sum_zipWith_plus : ∀ (xs ys : List Int), xs.length = ys.length →
    wrap_int (List.zipWith plus xs ys).sum = wrap_int (xs.sum + ys.sum)
  | [], [], _ => rfl
  | x :: xs, y :: ys, h => by
    have ih := wrap_int_sum_zipWith_plus xs ys (by simpa using h)
    rw [List.zipWith_cons_cons, List.sum_cons, List.sum_cons, List.sum_cons]
    have hxy : wrap_int (plus x y) = wrap_int (x + y) := wrap_int_idem _
    have hsum := wrap_int_congr_add _ _ _ _ hxy ih
    rw [hsum]
    congr 1
    ring

/-- C18: for vectors of equal length, `sum()` of `add_vectors v1 v2` is `v1.sum() + v2.sum()`
in `int` arithmetic. -/
theorem add_vectors_sum (v1 v2 : Vector) (h : v1.size = v2.size) :
    ∃ r, add_vectors v1 v2 = .ok r ∧ r.sum = plus v1.sum v2.sum := by
  refine ⟨⟨List.zipWith plus v1.v_ v2.v_⟩, add_vectors_eq_zipWith v1 v2 h, ?_⟩
  rw [vector_sum_wrap, vector_sum_wrap v1, vector_sum_wrap v2]
  show wrap_int (List.zipWith plus v1.v_ v2.v_).sum = wrap_int (wrap_int _ + wrap_int _)
  rw [wrap_int_sum_zipWith_plus v1.v_ v2.v_ h]
  exact wrap_int_congr_add _ _ _ _ (wrap_int_idem _).symm (wrap_int_idem _).symm

theorem add_vectors_sum_witness :
    (⟨[1, 2147483647]⟩ : Vector).size = (⟨[3, 4]⟩ : Vector).size ∧
    ∃ r, add_vectors ⟨[1, 2147483647]⟩ ⟨[3, 4]⟩ = .ok r ∧
      r.sum = plus (Vector.mk [1, 2147483647]).sum (Vector.mk [3, 4]).sum :=
  ⟨by decide, add_vectors_sum ⟨[1, 2147483647]⟩ ⟨[3, 4]⟩ (by decide)⟩

theorem plus_comm (a b : Int) : plus a b = plus b a := by
  unfold plus
  rw [add_comm]

theorem zipWith_plus_comm : ∀ (xs ys : List Int),
    List.zipWith plus xs ys = List.zipWith plus ys xs
  | [], [] => rfl
  | [], _ :: _ => rfl
  | _ :: _, [] => rfl
  | x :: xs, y :: ys => by
    rw [List.zipWith_cons_cons, List.zipWith_cons_cons, plus_comm x y, zipWith_plus_comm xs ys]

/-- C19: `add_vectors v1 v2` succeeds exactly when `add_vectors v2 v1` succeeds, and when
both succeed the two results are the same vector. -/
theorem add_vectors_comm (v1 v2 : Vector) :
    ((∃ r, add_vectors v1 v2 = .ok r) ↔ (∃ r, add_vectors v2 v1 = .ok r)) ∧
    (∀ r1 r2, add_vectors v1 v2 = .ok r1 → add_vectors v2 v1 = .ok r2 → r1 = r2) := by
  by_cases h : v1.size = v2.size
  · have h12 := add_vectors_eq_zipWith v1 v2 h
    have h21 := add_vectors_eq_zipWith v2 v1 h.symm
    refine ⟨⟨fun _ => ⟨_, h21⟩, fun _ => ⟨_, h12⟩⟩, ?_⟩
    intro r1 r2 hr1 hr2
    rw [h12] at hr1
    rw [h21, zipWith_plus_comm] at hr2
    cases hr1
    cases hr2
    rfl
  · have h12 := add_vectors_fails_iff_aux v1 v2 h
    have h21 := add_vectors_fails_iff_aux v2 v1 (Ne.symm h)
    refine ⟨⟨?_, ?_⟩, ?_⟩
    · rintro ⟨r, hr⟩
      rw [h12] at hr
      cases hr
    · rintro ⟨r, hr⟩
      rw [h21] at hr
      cases hr
    · intro r1 r2 hr1
      rw [h12] at hr1
      cases hr1

theorem add_vectors_comm_witness :
    add_vectors ⟨[1, 2]⟩ ⟨[30, 40]⟩ = .ok ⟨[31, 42]⟩ ∧
    add_vectors ⟨[30, 40]⟩ ⟨[1, 2]⟩ = .ok ⟨[31, 42]⟩ ∧
    (⟨[31, 42]⟩ : Vector) = ⟨[31, 42]⟩ :=
  ⟨by decide, by decide,
    (add_vectors_comm ⟨[1, 2]⟩ ⟨[30, 40]⟩).2 ⟨[31, 42]⟩ ⟨[31, 42]⟩ (by decide) (by decide)⟩

/-! ## The exception probe -/

theorem unequal_size_message_ne_empty (a b : String) :
    "Vectors of unequal size (" ++ a ++ " and " ++ b ++ ")" ≠ "" := by
  intro h
  have hlen := congrArg String.length h
  simp only [String.length_append] at hlen
  have h0 : ("" : String).length = 0 := rfl
  have h1 : (")" : String).length = 1 := rfl
  omega

/-- C20: `was_exception_raised_when_adding_vectors v1 v2` always returns a text and never
an error; the text is empty exactly when the sizes are equal, and otherwise it is the text
of the error of `add_vectors`, `Vectors of unequal size (L1 and L2)` with the sizes of
`v1` and `v2`. -/
theorem was_exception_raised_spec (v1 v2 : Vector) :
    (∃ s, was_exception_raised_when_adding_vectors v1 v2 = .ok s) ∧
    (was_exception_raised_when_adding_vectors v1 v2 = .ok "" ↔ v1.size = v2.size) ∧
    (v1.size ≠ v2.size →
      was_exception_raised_when_adding_vectors v1 v2 = .ok
        ("Vectors of unequal size (" ++ Nat.repr v1.size ++ " and " ++ Nat.repr v2.size
          ++ ")") ∧
      add_vectors v1 v2 = .error (.invalid_argument
        ("Vectors of unequal size (" ++ Nat.repr v1.size ++ " and " ++ Nat.repr v2.size
          ++ ")"))) := by
  by_cases h : v1.size = v2.size
  · have hok : was_exception_raised_when_adding_vectors v1 v2 = .ok "" := by
      simp [was_exception_raised_when_adding_vectors, add_vectors_eq_zipWith v1 v2 h]
    exact ⟨⟨_, hok⟩, ⟨fun _ => h, fun _ => hok⟩, fun hne => absurd h hne⟩
  · have herr := add_vectors_fails_iff_aux v1 v2 h
    have hmsg : was_exception_raised_when_adding_vectors v1 v2 = .ok
        ("Vectors of unequal size (" ++ Nat.repr v1.size ++ " and " ++ Nat.repr v2.size
          ++ ")") := by
      simp [was_exception_raised_when_adding_vectors, herr]
    refine ⟨⟨_, hmsg⟩, ⟨?_, fun heq => absurd heq h⟩, fun _ => ⟨hmsg, herr⟩⟩
    intro hempty
    rw [hmsg] at hempty
    injection hempty with hs
    exact absurd hs (unequal_size_message_ne_empty _ _)

theorem was_exception_raised_spec_witness :
    (⟨[1, 2]⟩ : Vector).size ≠ (⟨[3, 4, 5]⟩ : Vector).size ∧
    was_exception_raised_when_adding_vectors ⟨[1, 2]⟩ ⟨[3, 4, 5]⟩
      = .ok "Vectors of unequal size (2 and 3)" ∧
    add_vectors ⟨[1, 2]⟩ ⟨[3, 4, 5]⟩
      = .error (.invalid_argument "Vectors of unequal size (2 and 3)") :=
  ⟨by decide, (was_exception_raised_spec ⟨[1, 2]⟩ ⟨[3, 4, 5]⟩).2.2 (by decide)⟩

/-! ## Rendering followed by parsing -/

theorem digitChar_digit : ∀ k, k < 10 →
    is_digit_char (Nat.digitChar k) = true ∧ istringstream.digit_value (Nat.digitChar k) = k := by
  decide

theorem read_decimal_append_singleton (pre : List Char) (d : Char) :
    istringstream.read_decimal (pre ++ [d])
      = 10 * istringstream.read_decimal pre + istringstream.digit_value d := by
  simp [istringstream.read_decimal, List.foldl_append]

theorem toDigitsCore_spec : ∀ (fuel n : Nat) (ds : List Char), n < fuel →
    ∃ pre, Nat.toDigitsCore 10 fuel n ds = pre ++ ds ∧ pre ≠ [] ∧
      (∀ c ∈ pre, is_digit_char c = true) ∧ istringstream.read_decimal pre = n
  | 0, _, _, h => absurd h (Nat.not_lt_zero _)
  | fuel + 1, n, ds, h => by
    have hd := digitChar_digit (n % 10) (Nat.mod_lt _ (by decide))
    by_cases h0 : n / 10 = 0
    · refine ⟨[Nat.digitChar (n % 10)], by simp [Nat.toDigitsCore, h0], by simp, ?_, ?_⟩
      · intro c hc
        rw [List.mem_singleton] at hc
        rw [hc]
        exact hd.1
      · simp only [istringstream.read_decimal, List.foldl_cons, List.foldl_nil, hd.2]
        omega
    · obtain ⟨pre, hpre, _, hdig, hval⟩ :=
        toDigitsCore_spec fuel (n / 10) (Nat.digitChar (n % 10) :: ds) (by omega)
      refine ⟨pre ++ [Nat.digitChar (n % 10)], by simp [Nat.toDigitsCore, h0, hpre], by simp,
        ?_, ?_⟩
      · intro c hc
        rcases List.mem_append.mp hc with hc | hc
        · exact hdig c hc
        · rw [List.mem_singleton] at hc
          rw [hc]
          exact hd.1
      · rw [read_decimal_append_singleton, hval, hd.2]
        omega

theorem toDigits_spec (n : Nat) :
    Nat.toDigits 10 n ≠ [] ∧ (∀ c ∈ Nat.toDigits 10 n, is_digit_char c = true) ∧
      spec_decimal (Nat.toDigits 10 n) = n := by
  obtain ⟨pre, hpre, hne, hdig, hval⟩ := toDigitsCore_spec (n + 1) n [] (Nat.lt_succ_self n)
  rw [List.append_nil] at hpre
  unfold Nat.toDigits
  rw [hpre, ← read_decimal_eq_spec]
  exact ⟨hne, hdig, hval⟩

theorem spec_digit_runs_append (ds : List Char) (c : Char) (rest : List Char)
    (hne : ds ≠ []) (hds : ∀ x ∈ ds, is_digit_char x = true) (hc : is_digit_char c = false) :
    spec_digit_runs (ds ++ c :: rest) = ds :: spec_digit_runs rest := by
  have hds1 : ∀ x ∈ ds, ¬ ((!is_digit_char x) = true) := by
    intro x hx
    simp [hds x hx]
  have hemp : ds.isEmpty = false := by
    cases ds with
    | nil => exact absurd rfl hne
    | cons _ _ => rfl
  unfold spec_digit_runs
  rw [List.splitOnP_first _ _ hds1 c (by simp [hc])]
  simp [hemp]

theorem nat_repr_data (n : Nat) : (Nat.repr n).data = Nat.toDigits 10 n := rfl

theorem spec_digit_runs_intercalate : ∀ (ns : List Nat), ns ≠ [] →
    ∀ (c : Char) (tail : List Char), is_digit_char c = false →
    spec_digit_runs ((", ".intercalate (ns.map Nat.repr)).data ++ c :: tail)
      = ns.map (Nat.toDigits 10) ++ spec_digit_runs tail
  | [], h, _, _, _ => absurd rfl h
  | [n], _, c, tail, hc => by
    have hn := toDigits_spec n
    have h1 : (", ".intercalate ([n].map Nat.repr)).data = Nat.toDigits 10 n := rfl
    rw [h1, spec_digit_runs_append _ c tail hn.1 hn.2.1 hc]
    rfl
  | n :: m :: ns, _, c, tail, hc => by
    have hn := toDigits_spec n
    have ih := spec_digit_runs_intercalate (m :: ns) (List.cons_ne_nil _ _) c tail hc
    rw [List.map_cons, List.map_cons, intercalate_cons_cons]
    have hdata : (Nat.repr n ++ ", " ++ ", ".intercalate (Nat.repr m :: ns.map Nat.repr)).data
        ++ c :: tail
        = Nat.toDigits 10 n ++ ',' :: (' ' ::
          ((", ".intercalate (Nat.repr m :: ns.map Nat.repr)).data ++ c :: tail)) := by
      simp [String.data_append, nat_repr_data]
    rw [hdata, spec_digit_runs_append _ ',' _ hn.1 hn.2.1 (by decide),
      spec_digit_runs_skip ' ' _ (by decide)]
    rw [List.map_cons] at ih
    rw [ih]
    rfl

theorem int_to_string_of_nonneg (x : Int) (h : 0 ≤ x) : int_to_string x = Nat.repr x.toNat := by
  cases x with
  | ofNat n => rfl
  | negSucc n => exact absurd h (by simp)

theorem from_string_of_runs (str : String)
    (h : ∀ r ∈ spec_digit_runs str.data, (spec_decimal r : Int) ≤ INT_MAX) :
    Vector.from_string str
      = some ⟨(spec_digit_runs str.data).map (fun r => (spec_decimal r : Int))⟩ := by
  have hscan := scan_spec str.data.length str.data (str.length + 2) [] 0 (le_refl _)
    (le_refl _) h
  simp only [Vector.from_string, istringstream.of_string, hscan, List.nil_append,
    Option.map_some']

theorem to_string_runs (x : Int) (xs : List Int) (h : ∀ y ∈ x :: xs, 0 ≤ y) :
    spec_digit_runs (to_string ⟨x :: xs⟩).data
      = (x :: xs).map (fun y => Nat.toDigits 10 y.toNat) := by
  have hmap : (x :: xs).map int_to_string = ((x :: xs).map Int.toNat).map Nat.repr := by
    rw [List.map_map]
    apply List.map_congr_left
    intro y hy
    exact int_to_string_of_nonneg y (h y hy)
  have hdata : (to_string ⟨x :: xs⟩).data
      = '[' :: ' ' :: ((", ".intercalate ((x :: xs).map int_to_string)).data ++ ' ' :: [']']) := by
    simp only [to_string]
    rw [to_string_loop_eq (x :: xs) _ (List.cons_ne_nil _ _)]
    simp [String.data_append]
  rw [hdata, hmap, spec_digit_runs_skip '[' _ (by decide), spec_digit_runs_skip ' ' _ (by decide),
    spec_digit_runs_intercalate _ (by simp) ' ' [']'] (by decide)]
  have htail : spec_digit_runs [']'] = [] := by decide
  rw [htail, List.append_nil, List.map_map]
  rfl

/-- C17: for every vector whose elements are all non-negative and at most `INT_MAX`, parsing
its rendering gives the vector back: `Vector.from_string (to_string v)` is `v`, with the same
length and the same elements; this includes the empty vector, rendered `[]`. -/
theorem from_string_to_string (v : Vector) (h : ∀ x ∈ v.v_, 0 ≤ x ∧ x ≤ INT_MAX) :
    Vector.from_string (to_string v) = some v ∧
    Vector.from_string (to_string ⟨[]⟩) = some ⟨[]⟩ := by
  refine ⟨?_, by decide⟩
  obtain ⟨xs⟩ := v
  cases xs with
  | nil => decide
  | cons x xs =>
    have hruns := to_string_runs x xs (fun y hy => (h y hy).1)
    have hval : ∀ y ∈ x :: xs, (spec_decimal (Nat.toDigits 10 y.toNat) : Int) = y := by
      intro y hy
      rw [(toDigits_spec y.toNat).2.2]
      exact Int.toNat_of_nonneg (h y hy).1
    rw [from_string_of_runs]
    · rw [hruns, List.map_map]
      congr 2
      conv_rhs => rw [← List.map_id (x :: xs)]
      apply List.map_congr_left
      intro y hy
      exact hval y hy
    · intro r hr
      rw [hruns] at hr
      obtain ⟨y, hy, rfl⟩ := List.mem_map.mp hr
      rw [hval y hy]
      exact (h y hy).2

theorem from_string_to_string_witness :
    (∀ x ∈ (⟨[1, 20, 0, 2147483647]⟩ : Vector).v_, 0 ≤ x ∧ x ≤ INT_MAX) ∧
    to_string ⟨[1, 20, 0, 2147483647]⟩ = "[ 1, 20, 0, 2147483647 ]" ∧
    Vector.from_string (to_string ⟨[1, 20, 0, 2147483647]⟩) = some ⟨[1, 20, 0, 2147483647]⟩ :=
  ⟨by decide, by decide, (from_string_to_string ⟨[1, 20, 0, 2147483647]⟩ (by decide)).1⟩

end Matlab
